import Mathlib

/-!
Verification development for the navigation evaluation analysis script
(`navigation_eval_analysis.py`).  Model names are embedded as lists of
characters, accuracies as rational numbers, and Python dictionaries as
association lists.  Each definition mirrors the corresponding construct
of the source script.
-/

namespace NavEval

/-- Model-name strings are modelled as lists of characters. -/
abbrev Str := List Char

/-- Python `str.lower()`, applied character-wise. -/
def toLowerStr (s : Str) : Str := s.map Char.toLower

/-- Python substring test `needle in hay`. -/
def containsSub (needle : Str) : Str → Bool
  | [] => needle.isEmpty
  | c :: t => needle.isPrefixOf (c :: t) || containsSub needle t

theorem containsSub_iff (needle : Str) : ∀ hay : Str,
    containsSub needle hay = true ↔ needle <:+: hay := by
  intro hay
  induction hay with
  | nil =>
    simp [containsSub, List.isEmpty_iff, List.infix_nil]
  | cons c t ih =>
    simp [containsSub, Bool.or_eq_true, List.isPrefixOf_iff_prefix, ih,
      List.infix_cons_iff]

/-- The explicit reasoning-mode marker substring. -/
def kwThinking : Str := "--thinking".toList

def kwO3 : Str := "o3".toList

def kwO4 : Str := "o4".toList

def kwGpt : Str := "gpt".toList

def kwClaude : Str := "claude".toList

def kwGrok : Str := "grok".toList

def kwDeepseek : Str := "deepseek".toList

def kwDeepseekR1 : Str := "deepseek-r1".toList

def kwGemini : Str := "gemini".toList

def kwLlama : Str := "llama".toList

def kwKimi : Str := "kimi".toList

/--
Model categorization, mirroring `categorize_model` in the source: the
input is lowercased, then the thinking flag, the family and the company
are each computed by substring / prefix tests over fixed keyword tables.
-/
def categorize_model (model_name : Str) : Str × Str × Bool :=
  let m := toLowerStr model_name
  let is_thinking :=
    containsSub kwThinking m ||
    ( kwO3.isPrefixOf m || kwO4.isPrefixOf m) ||
    containsSub kwDeepseekR1 m ||
    containsSub kwGrok m ||
    containsSub kwGemini m
  let family :=
    if containsSub kwO3 m || containsSub kwO4 m then "o-series".toList
    else if containsSub kwGpt m then "gpt".toList
    else if containsSub kwClaude m then "claude".toList
    else if containsSub kwGrok m then "grok".toList
    else if containsSub kwDeepseek m then "deepseek".toList
    else if containsSub kwGemini m then "gemini".toList
    else if containsSub kwLlama m then "llama".toList
    else if containsSub kwKimi m then "kimi".toList
    else "other".toList
  let company :=
    if containsSub kwGpt m || containsSub kwO3 m || containsSub kwO4 m then
      "openai".toList
    else if containsSub kwClaude m then "anthropic".toList
    else if containsSub kwGemini m then "google".toList
    else if containsSub kwGrok m then "x-ai".toList
    else if containsSub kwDeepseek m then "deepseek".toList
    else if containsSub kwKimi m then "moonshot".toList
    else if containsSub kwLlama m then "meta".toList
    else "other".toList
  (family, company, is_thinking)

/-- The full keyword table used by the classifier (thinking marker,
reasoning prefixes, family keywords). -/
def keywordTable : List Str :=
  [kwThinking, kwO3, kwO4, kwGpt, kwClaude, kwGrok, kwDeepseek,
   kwDeepseekR1, kwGemini, kwLlama, kwKimi]

theorem containsSub_false_of_not_infix {needle hay : Str} (h : ¬ needle <:+: hay) :
    containsSub needle hay = false := by
  cases hc : containsSub needle hay
  · rfl
  · exact absurd ((containsSub_iff needle hay).mp hc) h

theorem isPrefixOf_false_of_not_infix {needle hay : Str} (h : ¬ needle <:+: hay) :
    needle.isPrefixOf hay = false := by
  cases hc : needle.isPrefixOf hay
  · rfl
  · exact absurd ( List.IsPrefix.isInfix ( List.isPrefixOf_iff_prefix.mp hc)) h

/-- C1: for every model name, the classifier sets `is_thinking = true` iff the
lowercased name contains the marker `--thinking`, or starts with `o3` or `o4`,
or contains `deepseek-r1`, `grok` or `gemini`; in particular every name that
contains the marker `--thinking` verbatim is classified as thinking. -/
theorem is_thinking_characterization (s : Str) :
    ((categorize_model s).2.2 = true ↔
      (kwThinking <:+: toLowerStr s ∨
       (kwO3 <+: toLowerStr s ∨ kwO4 <+: toLowerStr s) ∨
       kwDeepseekR1 <:+: toLowerStr s ∨
       kwGrok <:+: toLowerStr s ∨
       kwGemini <:+: toLowerStr s)) ∧
    (kwThinking <:+: s → (categorize_model s).2.2 = true) := by
  constructor
  · simp only [categorize_model, Bool.or_eq_true, containsSub_iff,
      List.isPrefixOf_iff_prefix]
    tauto
  · intro h
    have hlow : kwThinking <:+: toLowerStr s := by
      have hmap := List.IsInfix.map Char.toLower h
      have hfix : kwThinking.map Char.toLower = kwThinking := by decide
      rw [hfix] at hmap
      exact hmap
    simp only [categorize_model, Bool.or_eq_true, containsSub_iff]
    tauto

/-- C1 witness: a concrete name containing the marker is classified as
thinking. -/
theorem is_thinking_characterization_witness :
    (categorize_model "claude-x--thinking".toList).2.2 = true :=
  (is_thinking_characterization "claude-x--thinking".toList).2 (by decide)

/-- C4: the classifier is a total function and a name whose lowercase form
contains none of the keywords of the keyword table is classified as
`(other, other, false)`. -/
theorem categorize_model_default (s : Str)
    (h : ∀ kw ∈ keywordTable, ¬ kw <:+: toLowerStr s) :
    categorize_model s = ( "other".toList, "other".toList, false) := by
  have hth := containsSub_false_of_not_infix
    (h kwThinking (by simp [keywordTable]))
  have ho3 := containsSub_false_of_not_infix (h kwO3 (by simp [keywordTable]))
  have ho4 := containsSub_false_of_not_infix (h kwO4 (by simp [keywordTable]))
  have hgpt := containsSub_false_of_not_infix (h kwGpt (by simp [keywordTable]))
  have hcl := containsSub_false_of_not_infix
    (h kwClaude (by simp [keywordTable]))
  have hgr := containsSub_false_of_not_infix (h kwGrok (by simp [keywordTable]))
  have hds := containsSub_false_of_not_infix
    (h kwDeepseek (by simp [keywordTable]))
  have hdr := containsSub_false_of_not_infix
    (h kwDeepseekR1 (by simp [keywordTable]))
  have hge := containsSub_false_of_not_infix
    (h kwGemini (by simp [keywordTable]))
  have hll := containsSub_false_of_not_infix
    (h kwLlama (by simp [keywordTable]))
  have hki := containsSub_false_of_not_infix (h kwKimi (by simp [keywordTable]))
  have hp3 := isPrefixOf_false_of_not_infix (h kwO3 (by simp [keywordTable]))
  have hp4 := isPrefixOf_false_of_not_infix (h kwO4 (by simp [keywordTable]))
  simp [categorize_model, hth, ho3, ho4, hgpt, hcl, hgr, hds, hdr, hge, hll,
    hki, hp3, hp4]

/-- C4 witness: the empty string is classified as `(other, other, false)`. -/
theorem categorize_model_default_witness :
    categorize_model [] = ( "other".toList, "other".toList, false) :=
  categorize_model_default [] (by decide)

/-- C8: a name whose lowercase form contains `o3` or `o4` as a substring but
does not start with either (and contains none of the thinking marker,
`deepseek-r1`, `grok`, `gemini`) gets family `o-series` and company `openai`
(overriding any other family or company keyword such as `claude`), yet
`is_thinking = false`: the thinking test uses a prefix check while the
family and company tests use substring containment. -/
theorem o_series_not_thinking (s : Str)
    (h34 : kwO3 <:+: toLowerStr s ∨ kwO4 <:+: toLowerStr s)
    (hp3 : ¬ kwO3 <+: toLowerStr s)
    (hp4 : ¬ kwO4 <+: toLowerStr s)
    (hth : ¬ kwThinking <:+: toLowerStr s)
    (hdr : ¬ kwDeepseekR1 <:+: toLowerStr s)
    (hgr : ¬ kwGrok <:+: toLowerStr s)
    (hge : ¬ kwGemini <:+: toLowerStr s) :
    categorize_model s = ( "o-series".toList, "openai".toList, false) := by
  have hbth := containsSub_false_of_not_infix hth
  have hbdr := containsSub_false_of_not_infix hdr
  have hbgr := containsSub_false_of_not_infix hgr
  have hbge := containsSub_false_of_not_infix hge
  have hbp3 : kwO3.isPrefixOf (toLowerStr s) = false := by
    cases hc : kwO3.isPrefixOf (toLowerStr s)
    · rfl
    · exact absurd ( List.isPrefixOf_iff_prefix.mp hc) hp3
  have hbp4 : kwO4.isPrefixOf (toLowerStr s) = false := by
    cases hc : kwO4.isPrefixOf (toLowerStr s)
    · rfl
    · exact absurd ( List.isPrefixOf_iff_prefix.mp hc) hp4
  rcases h34 with h | h
  · have hb := (containsSub_iff _ _).mpr h
    simp [categorize_model, hbth, hbdr, hbgr, hbge, hbp3, hbp4, hb]
  · have hb := (containsSub_iff _ _).mpr h
    simp [categorize_model, hbth, hbdr, hbgr, hbge, hbp3, hbp4, hb]

/-- C8 witness: `claude-o3x` contains `o3` not as a prefix, so it is
classified as a non-thinking `o-series` / `openai` model. -/
theorem o_series_not_thinking_witness :
    categorize_model "claude-o3x".toList =
      ( "o-series".toList, "openai".toList, false) :=
  o_series_not_thinking "claude-o3x".toList (by decide) (by decide) (by decide)
    (by decide) (by decide) (by decide) (by decide)

/-- One metrics record as stored in `eval-results.json` or in the hard-coded
supplemental thinking block.  `totalAccuracy` and `avgOutputTokens` are the
two fields the script accesses optionally (`data.get` / `in` test); the
others are accessed unconditionally. -/
structure Record where
  totalSamples : ℕ
  exactlyCorrect : ℕ
  mostlyCorrect : ℕ
  exactAccuracy : ℚ
  mostlyAccuracy : ℚ
  totalAccuracy : Option ℚ := none
  avgOutputTokens : Option ℚ := none
deriving DecidableEq

/-- A dataset: a Python dict from model name to metrics record, modelled as
an association list in insertion order. -/
abbrev Dataset := List (Str × Record)

/-- The top-level structure of `eval-results.json`: a dict from dataset name
to dataset. -/
abbrev EvalData := List (Str × Dataset)

/-- Python dict lookup `d[k]`, `None` modelling a `KeyError`. -/
def dictGet? {α : Type} (d : List (Str × α)) (k : Str) : Option α :=
  (d.find? fun p => decide (p.1 = k)).map Prod.snd

/-- Python dict assignment `d[k] = v`: replace the entry if the key is
present (dict keys are unique), else append in insertion order. -/
def dictSet {α : Type} : List (Str × α) → Str → α → List (Str × α)
  | [], k, v => [(k, v)]
  | p :: t, k, v => if p.1 = k then (k, v) :: t else p :: dictSet t k v

/-- Python `d.update(other)`: assign every entry of `other` in order. -/
def dictUpdate {α : Type} (d other : List (Str × α)) : List (Str × α) :=
  other.foldl (fun acc p => dictSet acc p.1 p.2) d

def sfKey : Str := "sf".toList

def caKey : Str := "ca".toList

def sonnet37ThinkKey : Str := "claude-3-7-sonnet-20250219--thinking".toList

def opusThinkKey : Str := "claude-opus-4-20250514--thinking".toList

def sonnet4ThinkKey : Str := "claude-sonnet-4-20250514--thinking".toList

def opusBaseKey : Str := "claude-opus-4-20250514".toList

/-- The literal supplemental sf record for `claude-opus-4-20250514--thinking`. -/
def opusSfRec : Record :=
  { totalSamples := 50, exactlyCorrect := 8, mostlyCorrect := 3,
    exactAccuracy := 16/100, mostlyAccuracy := 6/100,
    totalAccuracy := some (22/100) }

/-- The literal supplemental ca record for `claude-opus-4-20250514--thinking`. -/
def opusCaRec : Record :=
  { totalSamples := 50, exactlyCorrect := 26, mostlyCorrect := 1,
    exactAccuracy := 52/100, mostlyAccuracy := 2/100,
    totalAccuracy := some (54/100) }

/-- The literal supplemental sf record for `claude-3-7-sonnet--thinking`. -/
def sonnet37SfRec : Record :=
  { totalSamples := 26, exactlyCorrect := 2, mostlyCorrect := 2,
    exactAccuracy := 77/1000, mostlyAccuracy := 77/1000,
    totalAccuracy := some (154/1000) }

/-- The literal supplemental sf record for `claude-sonnet-4--thinking`. -/
def sonnet4SfRec : Record :=
  { totalSamples := 50, exactlyCorrect := 4, mostlyCorrect := 4,
    exactAccuracy := 8/100, mostlyAccuracy := 8/100,
    totalAccuracy := some (16/100) }

/-- The literal supplemental ca record for `claude-3-7-sonnet--thinking`. -/
def sonnet37CaRec : Record :=
  { totalSamples := 50, exactlyCorrect := 19, mostlyCorrect := 0,
    exactAccuracy := 38/100, mostlyAccuracy := 0,
    totalAccuracy := some (38/100) }

/-- The literal supplemental ca record for `claude-sonnet-4--thinking`. -/
def sonnet4CaRec : Record :=
  { totalSamples := 50, exactlyCorrect := 21, mostlyCorrect := 0,
    exactAccuracy := 42/100, mostlyAccuracy := 0,
    totalAccuracy := some (42/100) }

/-- The hard-coded supplemental thinking results for the sf dataset. -/
def thinking_sf : Dataset :=
  [(sonnet37ThinkKey, sonnet37SfRec),
   (opusThinkKey, opusSfRec),
   (sonnet4ThinkKey, sonnet4SfRec)]

/-- The hard-coded supplemental thinking results for the ca dataset. -/
def thinking_ca : Dataset :=
  [(sonnet37ThinkKey, sonnet37CaRec),
   (opusThinkKey, opusCaRec),
   (sonnet4ThinkKey, sonnet4CaRec)]

/-- One step of the merge loop
`eval_data[dataset].update(thinking_results[dataset])`: a missing dataset
key raises `KeyError`, modelled as `Except.error`. -/
def mergeStep (ev : EvalData) (ds : Str) (sup : Dataset) : Except Str EvalData :=
  match dictGet? ev ds with
  | none => Except.error ds
  | some d => Except.ok (dictSet ev ds (dictUpdate d sup))

/-- The startup merge of the supplemental thinking block into the loaded
data, iterating over the datasets `sf`, `ca`. -/
def mergeThinking (ev : EvalData) : Except Str EvalData :=
  match mergeStep ev sfKey thinking_sf with
  | Except.error e => Except.error e
  | Except.ok ev1 => mergeStep ev1 caKey thinking_ca

/-- One row of the flattened results table. -/
structure Row where
  model : Str
  dataset : Str
  family : Str
  company : Str
  is_thinking : Bool
  exact_accuracy : ℚ
  mostly_accuracy : ℚ
  total_accuracy : ℚ
  total_samples : ℕ
deriving DecidableEq

/-- The table row built for one (dataset, model, record) triple; the
`total_accuracy` column is `data.get('totalAccuracy', exact + mostly)`. -/
def rowOf (ds m : Str) (rec : Record) : Row :=
  { model := m, dataset := ds,
    family := (categorize_model m).1,
    company := (categorize_model m).2.1,
    is_thinking := (categorize_model m).2.2,
    exact_accuracy := rec.exactAccuracy,
    mostly_accuracy := rec.mostlyAccuracy,
    total_accuracy := (rec.totalAccuracy).getD
      (rec.exactAccuracy + rec.mostlyAccuracy),
    total_samples := rec.totalSamples }

def rowsOf (ds : Str) (d : Dataset) : List Row := d.map fun p => rowOf ds p.1 p.2

/-- The flattened results table, iterating over the datasets `sf`, `ca` of
the merged data; a missing dataset key would raise, modelled as `none`. -/
def resultsOf (ev : EvalData) : Option (List Row) :=
  match dictGet? ev sfKey, dictGet? ev caKey with
  | some dsf, some dca => some (rowsOf sfKey dsf ++ rowsOf caKey dca)
  | _, _ => none

theorem find?_key_dictSet_self {α : Type} (d : List (Str × α)) (k : Str) (v : α) :
    (dictSet d k v).find? (fun p => decide (p.1 = k)) = some (k, v) := by
  induction d with
  | nil => simp [dictSet]
  | cons p t ih =>
    by_cases hp : p.1 = k
    · simp [dictSet, hp]
    · simp [dictSet, hp, List.find?, ih]

theorem find?_key_dictSet_ne {α : Type} (d : List (Str × α)) {k k' : Str}
    (v : α) (hne : k ≠ k') :
    (dictSet d k' v).find? (fun p => decide (p.1 = k)) =
      d.find? (fun p => decide (p.1 = k)) := by
  induction d with
  | nil => simp [dictSet, List.find?, Ne.symm hne]
  | cons p t ih =>
    by_cases hp : p.1 = k'
    · have hset : dictSet (p :: t) k' v = (k', v) :: t := by simp [dictSet, hp]
      have h1 : (decide (((k', v) : Str × α).1 = k)) = false := by
        simp [Ne.symm hne]
      have h2 : (decide (p.1 = k)) = false := by simp [hp, Ne.symm hne]
      rw [hset]
      simp [List.find?, h1, h2]
    · have hset : dictSet (p :: t) k' v = p :: dictSet t k' v := by
        simp [dictSet, hp]
      rw [hset]
      by_cases hk : p.1 = k
      · simp [List.find?, hk]
      · simp [List.find?, hk, ih]

theorem dictGet?_dictSet_self {α : Type} (d : List (Str × α)) (k : Str) (v : α) :
    dictGet? (dictSet d k v) k = some v := by
  simp [dictGet?, find?_key_dictSet_self]

theorem dictGet?_dictSet_ne {α : Type} (d : List (Str × α)) {k k' : Str}
    (v : α) (hne : k ≠ k') :
    dictGet? (dictSet d k' v) k = dictGet? d k := by
  simp [dictGet?, find?_key_dictSet_ne d v hne]

theorem mem_dictSet_self {α : Type} (d : List (Str × α)) (k : Str) (v : α) :
    (k, v) ∈ dictSet d k v :=
  List.mem_of_find?_eq_some (find?_key_dictSet_self d k v)

theorem mem_dictSet_of_ne {α : Type} {d : List (Str × α)} {q : Str × α}
    (hq : q ∈ d) (k : Str) (v : α) (hne : q.1 ≠ k) : q ∈ dictSet d k v := by
  induction d with
  | nil => cases hq
  | cons p t ih =>
    rcases List.mem_cons.mp hq with h | h
    · subst h
      simp [dictSet, hne]
    · by_cases hp : p.1 = k
      · simp [dictSet, hp, List.mem_cons, h]
      · have hset : dictSet (p :: t) k v = p :: dictSet t k v := by
          simp [dictSet, hp]
        rw [hset]
        exact List.mem_cons.mpr (Or.inr (ih h))

/-- C2: every row of the flattened table derives its `total_accuracy` from
its source record: the stored `totalAccuracy` field when present, else
`exactAccuracy + mostlyAccuracy`. -/
theorem total_accuracy_derivation (ev : EvalData) (rows : List Row)
    (hrows : resultsOf ev = some rows) : ∀ row ∈ rows,
    ∃ ds d rec, dictGet? ev ds = some d ∧ (row.model, rec) ∈ d ∧
      row = rowOf ds row.model rec ∧
      ((∃ t, rec.totalAccuracy = some t ∧ row.total_accuracy = t) ∨
       (rec.totalAccuracy = none ∧
        row.total_accuracy = rec.exactAccuracy + rec.mostlyAccuracy)) := by
  intro row hrow
  unfold resultsOf at hrows
  rcases hsf : dictGet? ev sfKey with _ | dsf <;> rw [hsf] at hrows
  · cases hrows
  rcases hca : dictGet? ev caKey with _ | dca <;> rw [hca] at hrows
  · cases hrows
  injection hrows with hrows
  subst hrows
  have main : ∀ ds d, dictGet? ev ds = some d → row ∈ rowsOf ds d →
      ∃ ds d rec, dictGet? ev ds = some d ∧ (row.model, rec) ∈ d ∧
        row = rowOf ds row.model rec ∧
        ((∃ t, rec.totalAccuracy = some t ∧ row.total_accuracy = t) ∨
         (rec.totalAccuracy = none ∧
          row.total_accuracy = rec.exactAccuracy + rec.mostlyAccuracy)) := by
    intro ds d hget hrow
    rcases List.mem_map.mp hrow with ⟨p, hp, hrowp⟩
    have hmodel : row.model = p.1 := by rw [← hrowp]; rfl
    refine ⟨ds, d, p.2, hget, ?_, ?_, ?_⟩
    · rw [hmodel]; exact hp
    · rw [hmodel, ← hrowp]
    · rcases hta : p.2.totalAccuracy with _ | t
      · exact Or.inr ⟨rfl, by rw [← hrowp]; simp [rowOf, hta]⟩
      · exact Or.inl ⟨t, rfl, by rw [← hrowp]; simp [rowOf, hta]⟩
  rcases List.mem_append.mp hrow with h | h
  · exact main sfKey dsf hsf h
  · exact main caKey dca hca h

/-- A small concrete loaded file used by witnesses: one sf record with a
stored `totalAccuracy`, one ca record without. -/
def sampleEval : EvalData :=
  [(sfKey, [( "m1".toList,
     { totalSamples := 4, exactlyCorrect := 1, mostlyCorrect := 2,
       exactAccuracy := 1, mostlyAccuracy := 2, totalAccuracy := some 3 })]),
   (caKey, [(opusBaseKey,
     { totalSamples := 4, exactlyCorrect := 1, mostlyCorrect := 2,
       exactAccuracy := 1, mostlyAccuracy := 2 })])]

/-- C2 witness: the derivation holds for every row of the table built from
the concrete sample data. -/
theorem total_accuracy_derivation_witness :
    ∃ rows, resultsOf sampleEval = some rows ∧ ∀ row ∈ rows,
      ∃ ds d rec, dictGet? sampleEval ds = some d ∧ (row.model, rec) ∈ d ∧
        row = rowOf ds row.model rec ∧
        ((∃ t, rec.totalAccuracy = some t ∧ row.total_accuracy = t) ∨
         (rec.totalAccuracy = none ∧
          row.total_accuracy = rec.exactAccuracy + rec.mostlyAccuracy)) :=
  ⟨_, rfl, total_accuracy_derivation sampleEval _ rfl⟩

/-- C7: the merge step fails with a lookup error when either expected
dataset key is missing from the loaded file, and succeeds when both are
present. -/
theorem mergeThinking_failure (ev : EvalData) :
    ((dictGet? ev sfKey = none ∨ dictGet? ev caKey = none) →
      ∃ e, mergeThinking ev = Except.error e) ∧
    (∀ dsf dca, dictGet? ev sfKey = some dsf → dictGet? ev caKey = some dca →
      ∃ m, mergeThinking ev = Except.ok m) := by
  constructor
  · intro h
    rcases hsf : dictGet? ev sfKey with _ | dsf
    · exact ⟨sfKey, by simp [mergeThinking, mergeStep, hsf]⟩
    · rcases h with h | h
      · rw [hsf] at h; cases h
      · refine ⟨caKey, ?_⟩
        have hca1 : dictGet? (dictSet ev sfKey (dictUpdate dsf thinking_sf))
            caKey = none := by
          rw [dictGet?_dictSet_ne _ _ (by decide : caKey ≠ sfKey)]
          exact h
        simp [mergeThinking, mergeStep, hsf, hca1]
  · intro dsf dca hsf hca
    have hca1 : dictGet? (dictSet ev sfKey (dictUpdate dsf thinking_sf))
        caKey = some dca := by
      rw [dictGet?_dictSet_ne _ _ (by decide : caKey ≠ sfKey)]
      exact hca
    refine ⟨dictSet (dictSet ev sfKey (dictUpdate dsf thinking_sf)) caKey
      (dictUpdate dca thinking_ca), ?_⟩
    simp [mergeThinking, mergeStep, hsf, hca1]

/-- C7 witness: the merge fails on an empty loaded file and succeeds on the
sample data, which has both dataset keys. -/
theorem mergeThinking_failure_witness :
    (∃ e, mergeThinking [] = Except.error e) ∧
    (∃ m, mergeThinking sampleEval = Except.ok m) :=
  ⟨(mergeThinking_failure []).1 (Or.inl rfl),
   (mergeThinking_failure sampleEval).2 _ _ rfl rfl⟩

/-- C9: whatever the loaded file, after a successful merge the flattened
table contains the sf row for the literal supplemental
`claude-opus-4-20250514--thinking` record, and its derived `total_accuracy`
is 0.22, which also equals its `exactAccuracy + mostlyAccuracy`
(0.16 + 0.06). -/
theorem opus_thinking_total_accuracy (ev merged : EvalData) (rows : List Row)
    (hm : mergeThinking ev = Except.ok merged)
    (hr : resultsOf merged = some rows) :
    ∃ row ∈ rows, row.dataset = sfKey ∧ row.model = opusThinkKey ∧
      row.total_accuracy = 22/100 ∧
      row.exact_accuracy + row.mostly_accuracy = 22/100 := by
  unfold mergeThinking mergeStep at hm
  rcases hsf : dictGet? ev sfKey with _ | dsf
  · simp [hsf] at hm
  simp only [hsf] at hm
  rcases hca : dictGet? (dictSet ev sfKey (dictUpdate dsf thinking_sf)) caKey
    with _ | dca1
  · simp [hca] at hm
  simp only [hca] at hm
  injection hm with hm
  have hmsf : dictGet? merged sfKey = some (dictUpdate dsf thinking_sf) := by
    rw [← hm, dictGet?_dictSet_ne _ _ (by decide : sfKey ≠ caKey),
      dictGet?_dictSet_self]
  have hmca : dictGet? merged caKey = some (dictUpdate dca1 thinking_ca) := by
    rw [← hm, dictGet?_dictSet_self]
  unfold resultsOf at hr
  simp only [hmsf, hmca] at hr
  injection hr with hr
  have hupd : dictUpdate dsf thinking_sf =
      dictSet (dictSet (dictSet dsf sonnet37ThinkKey sonnet37SfRec)
        opusThinkKey opusSfRec) sonnet4ThinkKey sonnet4SfRec := by
    simp [dictUpdate, thinking_sf]
  have hmem : (opusThinkKey, opusSfRec) ∈ dictUpdate dsf thinking_sf := by
    rw [hupd]
    exact mem_dictSet_of_ne (mem_dictSet_self _ _ _) _ _ (by decide)
  have hrowmem : rowOf sfKey opusThinkKey opusSfRec ∈ rows := by
    rw [← hr]
    exact List.mem_append.mpr (Or.inl (List.mem_map.mpr ⟨_, hmem, rfl⟩))
  refine ⟨_, hrowmem, rfl, rfl, ?_, ?_⟩
  · simp [rowOf, opusSfRec]
  · show opusSfRec.exactAccuracy + opusSfRec.mostlyAccuracy = 22/100
    norm_num [opusSfRec]

/-- C9 witness: the derivation is exhibited on the concrete sample data. -/
theorem opus_thinking_total_accuracy_witness :
    ∃ merged rows, mergeThinking sampleEval = Except.ok merged ∧
      resultsOf merged = some rows ∧
      ∃ row ∈ rows, row.dataset = sfKey ∧ row.model = opusThinkKey ∧
        row.total_accuracy = 22/100 ∧
        row.exact_accuracy + row.mostly_accuracy = 22/100 :=
  ⟨_, _, rfl, rfl, opus_thinking_total_accuracy sampleEval _ _ rfl rfl⟩

/-- Deduplication of a key list, modelling the set of group keys produced
by pandas `groupby` (membership is all that matters; the script never
depends on group order). -/
def uniq {α : Type} [DecidableEq α] : List α → List α
  | [] => []
  | x :: xs => if x ∈ uniq xs then uniq xs else x :: uniq xs

/-- The rows of one group: the rows of the table whose grouping key is `k`,
in table order, as pandas `groupby` preserves order within a group. -/
def groupRows {κ : Type} [DecidableEq κ] (df : List Row) (key : Row → κ)
    (k : κ) : List Row :=
  df.filter fun r => decide (key r = k)

/-- Pandas `Series.idxmax` over `total_accuracy`, resolved to the selected
row: the first row of the list attaining the maximal value. -/
def firstMax : List Row → Option Row
  | [] => none
  | x :: xs =>
    match firstMax xs with
    | none => some x
    | some y => if y.total_accuracy ≤ x.total_accuracy then some x else some y

/-- `df.loc[df.groupby(key)['total_accuracy'].idxmax()]`: for each group,
the first row with maximal total accuracy. -/
def groupBest {κ : Type} [DecidableEq κ] (df : List Row) (key : Row → κ) :
    List Row :=
  (uniq (df.map key)).filterMap fun k => firstMax (groupRows df key k)

/-- The grouping key of the family-best pass: `['dataset', 'family']`. -/
def famKey (r : Row) : Str × Str := (r.dataset, r.family)

/-- The grouping key of the company-best pass: `['dataset', 'company']`. -/
def compKey (r : Row) : Str × Str := (r.dataset, r.company)

/-- `family_best`: best row per (dataset, family) group. -/
def family_best (df : List Row) : List Row := groupBest df famKey

/-- `company_best`: best row per (dataset, company) group. -/
def company_best (df : List Row) : List Row := groupBest df compKey

theorem firstMax_eq_none {l : List Row} (h : firstMax l = none) : l = [] := by
  cases l with
  | nil => rfl
  | cons x xs =>
    unfold firstMax at h
    rcases hxs : firstMax xs with _ | y <;> simp only [hxs] at h
    · cases h
    · split at h <;> cases h

theorem firstMax_spec {l : List Row} :
    ∀ {sel : Row}, firstMax l = some sel →
    (∀ r ∈ l, r.total_accuracy ≤ sel.total_accuracy) ∧
    ∃ pre suf, l = pre ++ sel :: suf ∧
      ∀ r ∈ pre, r.total_accuracy < sel.total_accuracy := by
  induction l with
  | nil => intro sel h; cases h
  | cons x xs ih =>
    intro sel h
    unfold firstMax at h
    rcases hxs : firstMax xs with _ | y <;> simp only [hxs] at h
    · injection h with h
      subst h
      have hnil : xs = [] := firstMax_eq_none hxs
      subst hnil
      exact ⟨by simp, [], [], rfl, by simp⟩
    · rcases ih hxs with ⟨hall, pre, suf, heq, hpre⟩
      by_cases hc : y.total_accuracy ≤ x.total_accuracy
      · rw [if_pos hc] at h
        injection h with h
        subst h
        refine ⟨?_, [], xs, rfl, by simp⟩
        intro r hr
        rcases List.mem_cons.mp hr with hr | hr
        · exact hr ▸ le_refl _
        · exact (hall r hr).trans hc
      · rw [if_neg hc] at h
        injection h with h
        subst h
        have hlt : x.total_accuracy < y.total_accuracy := not_le.mp hc
        refine ⟨?_, x :: pre, suf, by rw [heq]; rfl, ?_⟩
        · intro r hr
          rcases List.mem_cons.mp hr with hr | hr
          · exact hr ▸ le_of_lt hlt
          · exact hall r hr
        · intro r hr
          rcases List.mem_cons.mp hr with hr | hr
          · exact hr ▸ hlt
          · exact hpre r hr

theorem groupBest_spec {κ : Type} [DecidableEq κ] (df : List Row)
    (key : Row → κ) (sel : Row) (h : sel ∈ groupBest df key) :
    (∀ r ∈ groupRows df key (key sel), r.total_accuracy ≤ sel.total_accuracy) ∧
    ∃ pre suf, groupRows df key (key sel) = pre ++ sel :: suf ∧
      ∀ r ∈ pre, r.total_accuracy < sel.total_accuracy := by
  rcases List.mem_filterMap.mp h with ⟨k, hk, hsel⟩
  have hspec := firstMax_spec hsel
  have hselmem : sel ∈ groupRows df key k := by
    rcases hspec.2 with ⟨pre, suf, heq, _⟩
    rw [heq]
    exact List.mem_append.mpr (Or.inr (List.mem_cons_self _ _))
  have hkey : key sel = k := of_decide_eq_true (List.mem_filter.mp hselmem).2
  rw [hkey]
  exact hspec

/-- C3: every selection of the family-best or company-best pass has total
accuracy ≥ every row of its (dataset, grouping-key) group, and is the
first row of the group attaining that maximum — the pandas `idxmax`
tie-breaking rule. -/
theorem group_best_max (df : List Row) (sel : Row) :
    (sel ∈ family_best df →
      (∀ r ∈ groupRows df famKey (famKey sel),
        r.total_accuracy ≤ sel.total_accuracy) ∧
      ∃ pre suf, groupRows df famKey (famKey sel) = pre ++ sel :: suf ∧
        ∀ r ∈ pre, r.total_accuracy < sel.total_accuracy) ∧
    (sel ∈ company_best df →
      (∀ r ∈ groupRows df compKey (compKey sel),
        r.total_accuracy ≤ sel.total_accuracy) ∧
      ∃ pre suf, groupRows df compKey (compKey sel) = pre ++ sel :: suf ∧
        ∀ r ∈ pre, r.total_accuracy < sel.total_accuracy) :=
  ⟨fun h => groupBest_spec df famKey sel h,
   fun h => groupBest_spec df compKey sel h⟩

/-- A concrete two-row table in which the second row wins its group. -/
def rowW1 : Row :=
  { model := "claude-a".toList, dataset := sfKey, family := "claude".toList,
    company := "anthropic".toList, is_thinking := false, exact_accuracy := 1,
    mostly_accuracy := 1, total_accuracy := 2, total_samples := 1 }

/-- A concrete row tying `rowW1`'s group with larger total accuracy. -/
def rowW2 : Row :=
  { model := "claude-b".toList, dataset := sfKey, family := "claude".toList,
    company := "anthropic".toList, is_thinking := false, exact_accuracy := 2,
    mostly_accuracy := 1, total_accuracy := 3, total_samples := 1 }

def dfW : List Row := [rowW1, rowW2]

/-- C3 witness: on the concrete table, the selected row dominates its
family group and its company group. -/
theorem group_best_max_witness :
    ((∀ r ∈ groupRows dfW famKey (famKey rowW2),
        r.total_accuracy ≤ rowW2.total_accuracy) ∧
      ∃ pre suf, groupRows dfW famKey (famKey rowW2) = pre ++ rowW2 :: suf ∧
        ∀ r ∈ pre, r.total_accuracy < rowW2.total_accuracy) ∧
    ((∀ r ∈ groupRows dfW compKey (compKey rowW2),
        r.total_accuracy ≤ rowW2.total_accuracy) ∧
      ∃ pre suf, groupRows dfW compKey (compKey rowW2) = pre ++ rowW2 :: suf ∧
        ∀ r ∈ pre, r.total_accuracy < rowW2.total_accuracy) :=
  ⟨(group_best_max dfW rowW2).1 (by decide),
   (group_best_max dfW rowW2).2 (by decide)⟩

/-- Fuel-indexed implementation of Python
`name.replace('--thinking', '')`: scan left to right, removing each
occurrence of the 10-character marker.  The fuel is instantiated with the
length of the string, which the scan never exhausts. -/
def stripAux : ℕ → Str → Str
  | _, [] => []
  | 0, l => l
  | fuel + 1, c :: rest =>
    if kwThinking.isPrefixOf (c :: rest) then
      stripAux fuel (List.drop 10 (c :: rest))
    else c :: stripAux fuel rest

/-- Python `model.replace('--thinking', '')`. -/
def stripThinking (s : Str) : Str := stripAux s.length s

/-- One entry of the thinking-improvement table. -/
structure Imp where
  dataset : Str
  base_model : Str
  base_accuracy : ℚ
  thinking_accuracy : ℚ
  improvement : ℚ
  relative_improvement : ℚ
deriving DecidableEq

/-- The improvement entry for one candidate base model in one dataset:
present exactly when both the plain and the thinking-suffixed versions
occur in the table (`.iloc[0]` takes the first matching row of each). -/
def pairEntry (df : List Row) (ds base : Str) : Option Imp :=
  match df.filter fun r => decide (r.dataset = ds ∧ r.model = base),
        df.filter fun r => decide (r.dataset = ds ∧
          r.model = base ++ kwThinking) with
  | b :: _, t :: _ =>
    let base_acc := b.total_accuracy
    let thinking_acc := t.total_accuracy
    let improvement := thinking_acc - base_acc
    some { dataset := ds, base_model := base, base_accuracy := base_acc,
           thinking_accuracy := thinking_acc, improvement := improvement,
           relative_improvement :=
             if 0 < base_acc then improvement / base_acc else 0 }
  | _, _ => none

/-- The candidate base-model names of one dataset:
`set(... model.str.replace('--thinking', ''))`. -/
def baseModels (df : List Row) (ds : Str) : List Str :=
  uniq ((df.filter fun r => decide (r.dataset = ds)).map
    fun r => stripThinking r.model)

/-- The paired thinking-improvement pass over the flattened table,
iterating the datasets sf then ca. -/
def thinking_improvements (df : List Row) : List Imp :=
  (baseModels df sfKey).filterMap (pairEntry df sfKey) ++
    (baseModels df caKey).filterMap (pairEntry df caKey)

theorem pairEntry_spec {df : List Row} {ds base : Str} {e : Imp}
    (h : pairEntry df ds base = some e) :
    e.dataset = ds ∧ e.base_model = base ∧
    e.improvement = e.thinking_accuracy - e.base_accuracy ∧
    (0 < e.base_accuracy →
      e.relative_improvement =
        (e.thinking_accuracy - e.base_accuracy) / e.base_accuracy) ∧
    (¬ 0 < e.base_accuracy → e.relative_improvement = 0) := by
  unfold pairEntry at h
  rcases hb : df.filter (fun r => decide (r.dataset = ds ∧ r.model = base))
    with _ | ⟨b, brest⟩ <;> simp only [hb] at h
  · cases h
  rcases ht : df.filter (fun r => decide (r.dataset = ds ∧
      r.model = base ++ kwThinking)) with _ | ⟨t, trest⟩ <;>
    simp only [ht] at h
  · cases h
  injection h with h
  subst h
  refine ⟨rfl, rfl, rfl, ?_, ?_⟩
  · intro h0
    simp [h0]
  · intro h0
    simp [h0]

/-- C5: every entry of the paired-improvement pass carries
`improvement = thinking_accuracy - base_accuracy`, and its relative
improvement is `improvement / base_accuracy` when the base accuracy is
positive and `0` otherwise, so no division by zero is performed. -/
theorem relative_improvement_guarded (df : List Row) (e : Imp)
    (he : e ∈ thinking_improvements df) :
    e.improvement = e.thinking_accuracy - e.base_accuracy ∧
    (0 < e.base_accuracy →
      e.relative_improvement =
        (e.thinking_accuracy - e.base_accuracy) / e.base_accuracy) ∧
    (¬ 0 < e.base_accuracy → e.relative_improvement = 0) := by
  rcases List.mem_append.mp he with h | h <;>
    rcases List.mem_filterMap.mp h with ⟨base, hbase, hpe⟩ <;>
    exact (pairEntry_spec hpe).2.2

/-- A concrete base row for the improvement-pass witness. -/
def rowB : Row :=
  { model := "claude-z".toList, dataset := sfKey, family := "claude".toList,
    company := "anthropic".toList, is_thinking := false, exact_accuracy := 1,
    mostly_accuracy := 1, total_accuracy := 2, total_samples := 1 }

/-- A concrete thinking row paired with `rowB`. -/
def rowT : Row :=
  { model := "claude-z--thinking".toList, dataset := sfKey,
    family := "claude".toList, company := "anthropic".toList,
    is_thinking := true, exact_accuracy := 2, mostly_accuracy := 1,
    total_accuracy := 3, total_samples := 1 }

def dfPair : List Row := [rowB, rowT]

/-- C5 witness: the guarded formula holds on the entry produced for the
concrete base/thinking pair. -/
theorem relative_improvement_guarded_witness :
    ∃ e ∈ thinking_improvements dfPair,
      e.improvement = e.thinking_accuracy - e.base_accuracy ∧
      (0 < e.base_accuracy →
        e.relative_improvement =
          (e.thinking_accuracy - e.base_accuracy) / e.base_accuracy) ∧
      (¬ 0 < e.base_accuracy → e.relative_improvement = 0) :=
  ⟨_, List.mem_cons_self _ _,
   relative_improvement_guarded dfPair _ (List.mem_cons_self _ _)⟩

/-- One row of the token-usage table, built only for records carrying
`avgOutputTokens`. -/
structure TokenRow where
  model : Str
  dataset : Str
  family : Str
  is_thinking : Bool
  avg_tokens : ℚ
  total_accuracy : ℚ
deriving DecidableEq

/-- The token rows of one dataset: records lacking `avgOutputTokens` are
skipped (`if 'avgOutputTokens' in data`). -/
def tokenRowsOf (ds : Str) (d : Dataset) : List TokenRow :=
  d.filterMap fun p =>
    (p.2.avgOutputTokens).map fun tok =>
      { model := p.1, dataset := ds,
        family := (categorize_model p.1).1,
        is_thinking := (categorize_model p.1).2.2,
        avg_tokens := tok,
        total_accuracy := (p.2.totalAccuracy).getD
          (p.2.exactAccuracy + p.2.mostlyAccuracy) }

/-- The token-usage table, iterating the datasets sf, ca. -/
def token_data (ev : EvalData) : Option (List TokenRow) :=
  match dictGet? ev sfKey, dictGet? ev caKey with
  | some dsf, some dca => some (tokenRowsOf sfKey dsf ++ tokenRowsOf caKey dca)
  | _, _ => none

/-- The table with the added `efficiency` column:
`total_accuracy / avg_tokens * 1000`. -/
def token_df (ev : EvalData) : Option (List (TokenRow × ℚ)) :=
  (token_data ev).map fun l =>
    l.map fun t => (t, t.total_accuracy / t.avg_tokens * 1000)

theorem nodup_key_val {α : Type} {d : List (Str × α)}
    (h : (d.map Prod.fst).Nodup) {m : Str} {a b : α}
    (ha : (m, a) ∈ d) (hb : (m, b) ∈ d) : a = b := by
  induction d with
  | nil => cases ha
  | cons p t ih =>
    rcases List.nodup_cons.mp h with ⟨hhead, htail⟩
    rcases List.mem_cons.mp ha with ha | ha <;>
      rcases List.mem_cons.mp hb with hb | hb
    · rw [← hb] at ha
      exact congrArg Prod.snd ha
    · exfalso
      apply hhead
      have : p.1 = m := by rw [← ha]
      rw [this]
      exact List.mem_map.mpr ⟨(m, b), hb, rfl⟩
    · exfalso
      apply hhead
      have : p.1 = m := by rw [← hb]
      rw [this]
      exact List.mem_map.mpr ⟨(m, a), ha, rfl⟩
    · exact ih htail ha hb

theorem mem_tokenRowsOf {ds : Str} {d : Dataset} {t : TokenRow}
    (h : t ∈ tokenRowsOf ds d) :
    t.dataset = ds ∧
    ∃ q ∈ d, q.1 = t.model ∧ q.2.avgOutputTokens = some t.avg_tokens := by
  rcases List.mem_filterMap.mp h with ⟨q, hq, hmap⟩
  rcases hopt : q.2.avgOutputTokens with _ | tok <;> rw [hopt] at hmap
  · cases hmap
  · injection hmap with hmap
    subst hmap
    exact ⟨rfl, q, hq, rfl, hopt⟩

/-- C6: the token-efficiency pass excludes exactly the records lacking
`avgOutputTokens` — such a record yields no token row, although it still
yields its row of the main results table — and every included row's
efficiency equals `total_accuracy / avg_tokens * 1000`. -/
theorem token_efficiency_pass (ev : EvalData) (td : List (TokenRow × ℚ))
    (rows : List Row) (htd : token_df ev = some td)
    (hrows : resultsOf ev = some rows) :
    (∀ p ∈ td, p.2 = p.1.total_accuracy / p.1.avg_tokens * 1000) ∧
    (∀ ds d m rec, (ds = sfKey ∨ ds = caKey) → dictGet? ev ds = some d →
      (m, rec) ∈ d → rec.avgOutputTokens = none → (d.map Prod.fst).Nodup →
      (∀ p ∈ td, ¬ (p.1.dataset = ds ∧ p.1.model = m)) ∧
      rowOf ds m rec ∈ rows) := by
  unfold token_df token_data at htd
  unfold resultsOf at hrows
  rcases hsf : dictGet? ev sfKey with _ | dsf <;>
    simp only [hsf] at htd hrows
  · cases htd
  rcases hca : dictGet? ev caKey with _ | dca <;>
    simp only [hca] at htd hrows
  · cases htd
  injection htd with htd
  injection hrows with hrows
  subst htd
  subst hrows
  constructor
  · intro p hp
    rcases List.mem_map.mp hp with ⟨t, _, hpt⟩
    rw [← hpt]
  · intro ds d m rec hds hget hmem hnone hnodup
    constructor
    · intro p hp hbad
      rcases List.mem_map.mp hp with ⟨t, ht, hpt⟩
      have ht1 : t = p.1 := by rw [← hpt]
      rw [ht1] at ht
      have hside := List.mem_append.mp ht
      have hmain : ∀ d', dictGet? ev ds = some d' →
          p.1 ∈ tokenRowsOf ds d' → False := by
        intro d' hget' htok
        have hd' : d' = d := by
          rw [hget] at hget'
          exact (Option.some.injEq _ _ ▸ hget').symm
        subst hd'
        rcases mem_tokenRowsOf htok with ⟨_, q, hq, hqm, hqtok⟩
        have hq2 : q = (m, q.2) := by
          rw [← hbad.2, ← hqm]
        rw [hq2] at hq
        have := nodup_key_val hnodup hq hmem
        rw [this] at hqtok
        rw [hnone] at hqtok
        cases hqtok
      rcases hds with hds | hds <;> subst hds
      · rcases hside with hside | hside
        · exact hmain dsf hsf hside
        · have := (mem_tokenRowsOf hside).1
          rw [hbad.1] at this
          exact absurd this (by decide)
      · rcases hside with hside | hside
        · have := (mem_tokenRowsOf hside).1
          rw [hbad.1] at this
          exact absurd this (by decide)
        · exact hmain dca hca hside
    · rcases hds with hds | hds <;> subst hds
      · have hd : d = dsf := by
          rw [hsf] at hget
          injection hget with hget
          exact hget.symm
        subst hd
        exact List.mem_append.mpr (Or.inl (List.mem_map.mpr ⟨(m, rec), hmem, rfl⟩))
      · have hd : d = dca := by
          rw [hca] at hget
          injection hget with hget
          exact hget.symm
        subst hd
        exact List.mem_append.mpr (Or.inr (List.mem_map.mpr ⟨(m, rec), hmem, rfl⟩))

/-- A record carrying token data, used by the C6 witness. -/
def recTok : Record :=
  { totalSamples := 4, exactlyCorrect := 1, mostlyCorrect := 2,
    exactAccuracy := 1, mostlyAccuracy := 2, totalAccuracy := some 2,
    avgOutputTokens := some 10 }

/-- A record lacking token data, used by the C6 witness. -/
def recNoTok : Record :=
  { totalSamples := 4, exactlyCorrect := 1, mostlyCorrect := 2,
    exactAccuracy := 1, mostlyAccuracy := 2 }

/-- A concrete loaded file with one tokenful and one tokenless record. -/
def sampleTok : EvalData :=
  [(sfKey, [( "mt".toList, recTok), ( "mn".toList, recNoTok)]), (caKey, [])]

/-- C6 witness: on the concrete data, every token row satisfies the
efficiency formula, the tokenless record is excluded from the token pass,
and its row still appears in the main table. -/
theorem token_efficiency_pass_witness :
    ∃ td rows, token_df sampleTok = some td ∧
      resultsOf sampleTok = some rows ∧
      (∀ p ∈ td, p.2 = p.1.total_accuracy / p.1.avg_tokens * 1000) ∧
      (∀ p ∈ td, ¬ (p.1.dataset = sfKey ∧ p.1.model = "mn".toList)) ∧
      rowOf sfKey "mn".toList recNoTok ∈ rows :=
  ⟨_, _, rfl, rfl, (token_efficiency_pass sampleTok _ _ rfl rfl).1,
   ((token_efficiency_pass sampleTok _ _ rfl rfl).2 sfKey _ "mn".toList
     recNoTok (Or.inl rfl) rfl (by decide) rfl (by decide)).1,
   ((token_efficiency_pass sampleTok _ _ rfl rfl).2 sfKey _ "mn".toList
     recNoTok (Or.inl rfl) rfl (by decide) rfl (by decide)).2⟩

theorem mem_uniq_of_mem {α : Type} [DecidableEq α] {a : α} {l : List α}
    (h : a ∈ l) : a ∈ uniq l := by
  induction l with
  | nil => cases h
  | cons x xs ih =>
    rcases List.mem_cons.mp h with h | h
    · subst h
      unfold uniq
      by_cases hx : a ∈ uniq xs
      · simp [hx]
      · simp [hx]
    · unfold uniq
      by_cases hx : x ∈ uniq xs <;> simp [hx, ih h, List.mem_cons]

theorem head_filter_eq_find? {α : Type} (p : α → Bool) :
    ∀ l : List α, (l.filter p).head? = l.find? p := by
  intro l
  induction l with
  | nil => rfl
  | cons a t ih =>
    by_cases ha : p a
    · simp [List.filter_cons, List.find?, ha]
    · simp [List.filter_cons, List.find?, ha, ih]

theorem filter_rowsOf_other_dataset {ds ds' : Str} (hne : ds' ≠ ds)
    (d : Dataset) (m : Str) :
    ((rowsOf ds' d).filter fun r => decide (r.dataset = ds ∧ r.model = m)) =
      [] := by
  apply List.filter_eq_nil_iff.mpr
  intro r hr
  rcases List.mem_map.mp hr with ⟨q, _, hq⟩
  have hds : r.dataset = ds' := by rw [← hq]; rfl
  simp [hds, hne]

/-- The rows selected for the thinking version of the opus pair: the
sf block contributes nothing, and on the ca block the filter reduces to a
key lookup. -/
theorem ca_thinking_filter (msf mca : Dataset) :
    ((rowsOf sfKey msf ++ rowsOf caKey mca).filter fun r =>
      decide (r.dataset = caKey ∧ r.model = opusBaseKey ++ kwThinking)) =
    (mca.filter fun q => decide (q.1 = opusThinkKey)).map
      fun q => rowOf caKey q.1 q.2 := by
  have hkey : opusBaseKey ++ kwThinking = opusThinkKey := by decide
  rw [List.filter_append,
    filter_rowsOf_other_dataset (by decide : sfKey ≠ caKey), List.nil_append]
  unfold rowsOf
  rw [List.filter_map]
  congr 1
  apply List.filter_congr
  intro q _
  show decide ((rowOf caKey q.1 q.2).dataset = caKey ∧
      (rowOf caKey q.1 q.2).model = opusBaseKey ++ kwThinking) =
    decide (q.1 = opusThinkKey)
  apply decide_eq_decide.mpr
  constructor
  · intro hcon
    show q.1 = opusThinkKey
    rw [← hkey]
    exact hcon.2
  · intro h1
    refine ⟨rfl, ?_⟩
    show q.1 = opusBaseKey ++ kwThinking
    rw [hkey]
    exact h1

/-- C10 (amended): given the literal supplemental block and a loaded file
whose ca dataset contains a `claude-opus-4-20250514` record, the paired
improvement pass produces an entry for that pair; its thinking accuracy is
the supplemental 0.54, its improvement equals `0.54 - base_accuracy`, and
the improvement is strictly positive whenever the base row's total
accuracy is below 0.54. -/
theorem opus_ca_improvement (ev merged : EvalData) (rows : List Row)
    (dca : Dataset) (brec : Record)
    (hm : mergeThinking ev = Except.ok merged)
    (hr : resultsOf merged = some rows)
    (hdca : dictGet? ev caKey = some dca)
    (hbrec : (opusBaseKey, brec) ∈ dca) :
    ∃ e ∈ thinking_improvements rows, e.dataset = caKey ∧
      e.base_model = opusBaseKey ∧ e.thinking_accuracy = 54/100 ∧
      e.improvement = 54/100 - e.base_accuracy ∧
      (e.base_accuracy < 54/100 → 0 < e.improvement) := by
  unfold mergeThinking mergeStep at hm
  rcases hsf : dictGet? ev sfKey with _ | dsf
  · simp [hsf] at hm
  simp only [hsf] at hm
  rcases hca : dictGet? (dictSet ev sfKey (dictUpdate dsf thinking_sf)) caKey
    with _ | dca1
  · simp [hca] at hm
  simp only [hca] at hm
  injection hm with hm
  have hdca1 : dca1 = dca := by
    rw [dictGet?_dictSet_ne _ _ (by decide : caKey ≠ sfKey), hdca] at hca
    injection hca with hca
    exact hca.symm
  rw [hdca1] at hm
  have hmsf : dictGet? merged sfKey = some (dictUpdate dsf thinking_sf) := by
    rw [← hm, dictGet?_dictSet_ne _ _ (by decide : sfKey ≠ caKey),
      dictGet?_dictSet_self]
  have hmca : dictGet? merged caKey = some (dictUpdate dca thinking_ca) := by
    rw [← hm, dictGet?_dictSet_self]
  unfold resultsOf at hr
  simp only [hmsf, hmca] at hr
  injection hr with hr
  have hupd : dictUpdate dca thinking_ca =
      dictSet (dictSet (dictSet dca sonnet37ThinkKey sonnet37CaRec)
        opusThinkKey opusCaRec) sonnet4ThinkKey sonnet4CaRec := by
    simp [dictUpdate, thinking_ca]
  -- the base record survives the merge
  have hbmem : (opusBaseKey, brec) ∈ dictUpdate dca thinking_ca := by
    rw [hupd]
    exact mem_dictSet_of_ne (mem_dictSet_of_ne (mem_dictSet_of_ne hbrec
      sonnet37ThinkKey sonnet37CaRec
      (show opusBaseKey ≠ sonnet37ThinkKey by decide)) opusThinkKey opusCaRec
      (show opusBaseKey ≠ opusThinkKey by decide)) sonnet4ThinkKey sonnet4CaRec
      (show opusBaseKey ≠ sonnet4ThinkKey by decide)
  -- the supplemental thinking record is present
  have htmem : (opusThinkKey, opusCaRec) ∈ dictUpdate dca thinking_ca := by
    rw [hupd]
    exact mem_dictSet_of_ne (mem_dictSet_self _ _ _) _ _ (by decide)
  -- and its key is the first with that name
  have htfind : (dictUpdate dca thinking_ca).find?
      (fun q => decide (q.1 = opusThinkKey)) = some (opusThinkKey, opusCaRec) := by
    rw [hupd,
      find?_key_dictSet_ne _ _ (by decide : opusThinkKey ≠ sonnet4ThinkKey),
      find?_key_dictSet_self]
  have hbrow : rowOf caKey opusBaseKey brec ∈ rows := by
    rw [← hr]
    exact List.mem_append.mpr (Or.inr (List.mem_map.mpr ⟨_, hbmem, rfl⟩))
  have htrow : rowOf caKey opusThinkKey opusCaRec ∈ rows := by
    rw [← hr]
    exact List.mem_append.mpr (Or.inr (List.mem_map.mpr ⟨_, htmem, rfl⟩))
  -- the base model name is a candidate of the ca pass
  have hcand : opusBaseKey ∈ baseModels rows caKey := by
    have hstrip : stripThinking opusBaseKey = opusBaseKey := by decide
    apply mem_uniq_of_mem
    rw [← hstrip]
    apply List.mem_map.mpr
    refine ⟨rowOf caKey opusBaseKey brec, ?_, rfl⟩
    exact List.mem_filter.mpr ⟨hbrow, decide_eq_true rfl⟩
  -- both filters of the pair entry are nonempty
  have hbfmem : rowOf caKey opusBaseKey brec ∈ rows.filter fun r =>
      decide (r.dataset = caKey ∧ r.model = opusBaseKey) :=
    List.mem_filter.mpr ⟨hbrow, decide_eq_true ⟨rfl, rfl⟩⟩
  have htfmem : rowOf caKey opusThinkKey opusCaRec ∈ rows.filter fun r =>
      decide (r.dataset = caKey ∧ r.model = opusBaseKey ++ kwThinking) :=
    List.mem_filter.mpr ⟨htrow, decide_eq_true ⟨rfl, by decide⟩⟩
  rcases hbf : rows.filter (fun r => decide (r.dataset = caKey ∧
      r.model = opusBaseKey)) with _ | ⟨b, brest⟩
  · rw [hbf] at hbfmem
    cases hbfmem
  rcases htf : rows.filter (fun r => decide (r.dataset = caKey ∧
      r.model = opusBaseKey ++ kwThinking)) with _ | ⟨t, trest⟩
  · rw [htf] at htfmem
    cases htfmem
  -- the selected thinking row is the literal supplemental one
  have hthead : t = rowOf caKey opusThinkKey opusCaRec := by
    have h1 : (rows.filter fun r => decide (r.dataset = caKey ∧
        r.model = opusBaseKey ++ kwThinking)).head? = some t := by
      rw [htf]
      rfl
    rw [← hr] at h1
    rw [ca_thinking_filter, List.head?_map, head_filter_eq_find?, htfind]
      at h1
    have h2 : some (rowOf caKey opusThinkKey opusCaRec) = some t := h1
    injection h2 with h2
    exact h2.symm
  -- assemble the entry
  have hpe : pairEntry rows caKey opusBaseKey =
      some { dataset := caKey, base_model := opusBaseKey,
             base_accuracy := b.total_accuracy,
             thinking_accuracy := t.total_accuracy,
             improvement := t.total_accuracy - b.total_accuracy,
             relative_improvement :=
               if 0 < b.total_accuracy then
                 (t.total_accuracy - b.total_accuracy) / b.total_accuracy
               else 0 } := by
    unfold pairEntry
    simp only [hbf, htf]
  refine ⟨_, List.mem_append.mpr (Or.inr (List.mem_filterMap.mpr
    ⟨opusBaseKey, hcand, hpe⟩)), rfl, rfl, ?_, ?_, ?_⟩
  · show t.total_accuracy = 54/100
    rw [hthead]
    simp [rowOf, opusCaRec]
  · show t.total_accuracy - b.total_accuracy = 54/100 - b.total_accuracy
    rw [hthead]
    simp [rowOf, opusCaRec]
  · intro hlt
    show 0 < t.total_accuracy - b.total_accuracy
    rw [hthead]
    have hta : (rowOf caKey opusThinkKey opusCaRec).total_accuracy = 54/100 := by
      simp [rowOf, opusCaRec]
    rw [hta]
    exact sub_pos.mpr hlt

/-- A ca base record with total accuracy 0 for the C10 witness. -/
def opusZeroRec : Record :=
  { totalSamples := 4, exactlyCorrect := 0, mostlyCorrect := 0,
    exactAccuracy := 0, mostlyAccuracy := 0, totalAccuracy := some 0 }

/-- A loaded file whose ca base record has total accuracy 0. -/
def goodEval : EvalData := [(sfKey, []), (caKey, [(opusBaseKey, opusZeroRec)])]

/-- C10 witness: on the concrete loaded file with base accuracy 0 the
entry for the opus pair exists and its improvement is positive. -/
theorem opus_ca_improvement_witness :
    ∃ merged rows, mergeThinking goodEval = Except.ok merged ∧
      resultsOf merged = some rows ∧
      ∃ e ∈ thinking_improvements rows, e.dataset = caKey ∧
        e.base_model = opusBaseKey ∧ e.thinking_accuracy = 54/100 ∧
        e.improvement = 54/100 - e.base_accuracy ∧
        (e.base_accuracy < 54/100 → 0 < e.improvement) :=
  ⟨_, _, rfl, rfl, opus_ca_improvement goodEval _ _ _ opusZeroRec rfl rfl rfl
    (List.mem_cons_self _ _)⟩

/-- A ca base record with total accuracy 1 refuting the original claim. -/
def opusBadRec : Record :=
  { totalSamples := 4, exactlyCorrect := 1, mostlyCorrect := 2,
    exactAccuracy := 1, mostlyAccuracy := 2, totalAccuracy := some 1 }

/-- A loaded file whose ca base record has total accuracy 1 (> 0.54). -/
def badEval : EvalData := [(sfKey, []), (caKey, [(opusBaseKey, opusBadRec)])]

/-- C10 counterexample: for the loaded file `badEval`, which contains a
`claude-opus-4-20250514` record on dataset ca, the pass produces the pair
entry but its improvement (0.54 - 1) is not strictly positive, refuting
the claim as stated for every loaded file. -/
theorem opus_ca_improvement_not_positive :
    ∃ merged rows, mergeThinking badEval = Except.ok merged ∧
      resultsOf merged = some rows ∧
      ∃ e ∈ thinking_improvements rows, e.dataset = caKey ∧
        e.base_model = opusBaseKey ∧ ¬ 0 < e.improvement := by
  refine ⟨_, _, rfl, rfl, _, List.mem_cons_self _ _, rfl, rfl, ?_⟩
  show ¬ (0 : ℚ) < 54/100 - 1
  norm_num

end NavEval
